import Mathlib

/-!
Verification of the TooN `Cholesky` engine (`src/Cholesky.h`).

The engine is embedded shallowly:
* the internal `Size × Size` coefficient buffer `my_cholesky` is a total
  function `Nat → Nat → K` together with the configured size `ch.size`
  (entries outside the `size × size` square stand for storage the C++
  object does not own);
* the entry type `Precision` is an arbitrary field `K` (the source is a
  template over any type with `+`, `-`, `*` and `1/x`);
* each `for` loop of the source becomes a `List.foldl` over the exact
  index range of the loop, threading the mutated state explicitly;
* `SizeMismatch<…>::test`, which lives in `TooN.h` (outside `src/`), is
  modelled from the spec: it raises `DimensionMismatch` when its two size
  arguments differ, before any computation proceeds.

The file first gives the executable embedding, then characterises the
loops by closed recursions (`chval`, `ysol`, `xsol`), and finally settles
the claims about the decomposition, substitution, inverse, determinant,
error handling and non-interference properties.
-/

namespace TooN

open Matrix

variable {K : Type*} [Field K]

/-- Write value `v` into buffer cell `(r, c)`; all other cells unchanged.
This models a single assignment `my_cholesky(r,c) = v`. -/
def setE (buf : Nat → Nat → K) (r c : Nat) (v : K) : Nat → Nat → K :=
  fun i j => if i = r ∧ j = c then v else buf i j

/-- The value `val` computed at the start of the `(col, row)` iteration of
`compute`: `val = my_cholesky(row,col)` followed by
`for(col2 = 0; col2 < col; col2++) val -= my_cholesky(col2,col) * my_cholesky(row,col2)`. -/
def colVal (buf : Nat → Nat → K) (col row : Nat) : K :=
  (List.range col).foldl (fun val col2 => val - buf col2 col * buf row col2) (buf row col)

/-- One iteration of the inner `row` loop of `compute`.  The state is the
buffer together with the cached `inv_diag`.  When `row == col` the
diagonal entry is stored and `inv_diag = 1/val` is cached; otherwise the
unnormalized value is stored in the upper half at `(col,row)` and the
normalized value `val * inv_diag` in the lower half at `(row,col)`. -/
def innerStep (col : Nat) (st : (Nat → Nat → K) × K) (row : Nat) : (Nat → Nat → K) × K :=
  if row = col then
    (setE st.1 row col (colVal st.1 col row), 1 / colVal st.1 col row)
  else
    (setE (setE st.1 col row (colVal st.1 col row)) row col (colVal st.1 col row * st.2), st.2)

/-- One iteration of the outer `col` loop of `compute`: the inner loop runs
`row` from `col` to `size - 1`.  `inv_diag` is declared uninitialized in
the source; it is modelled as `0`, a value that is never read because the
first inner iteration (`row == col`) always assigns it. -/
def computeCol (size : Nat) (buf : Nat → Nat → K) (col : Nat) : Nat → Nat → K :=
  ((List.range' col (size - col)).foldl (innerStep col) (buf, (0 : K))).1

/-- The buffer produced by `compute` on input `m`: after `my_cholesky = m`,
the outer loop runs `col` from `0` to `size - 1`. -/
def computeBuf (size : Nat) (m : Nat → Nat → K) : Nat → Nat → K :=
  (List.range size).foldl (computeCol size) m

/-- Write value `a` into slot `i` of a vector; models `y[i] = a`. -/
def setV (y : Nat → K) (i : Nat) (a : K) : Nat → K :=
  fun j => if j = i then a else y j

/-- First pass of the vector `backsub`: forward substitution through `L`.
`Vector y(size)` is uninitialized storage, modelled as the all-zero
function; slot `i` is assigned before any later iteration reads it. -/
def forwardPass (size : Nat) (buf : Nat → Nat → K) (v : Nat → K) : Nat → K :=
  (List.range size).foldl
    (fun y i => setV y i ((List.range i).foldl (fun val j => val - buf i j * y j) (v i)))
    (fun _ => 0)

/-- Second pass of the vector `backsub`: `y[i] /= my_cholesky(i,i)`. -/
def diagPass (size : Nat) (buf : Nat → Nat → K) (y : Nat → K) : Nat → K :=
  (List.range size).foldl (fun y i => setV y i (y i / buf i i)) y

/-- Third pass of the vector `backsub`: back substitution through `L.T()`,
iterating `i` from `size - 1` down to `0`. -/
def backPass (size : Nat) (buf : Nat → Nat → K) (y : Nat → K) : Nat → K :=
  ((List.range size).reverse).foldl
    (fun res i =>
      setV res i
        ((List.range' (i + 1) (size - (i + 1))).foldl
          (fun val j => val - buf j i * res j) (y i)))
    (fun _ => 0)

/-- The vector returned by `backsub(v)` (after the size check): the three
passes composed. -/
def backsubBuf (size : Nat) (buf : Nat → Nat → K) (v : Nat → K) : Nat → K :=
  backPass size buf (diagPass size buf (forwardPass size buf v))

/-- Write row `r` into slot `i` of a row-indexed buffer; models `y[i] = val`
where `val` is a `Vector<C2>`. -/
def setR (y : Nat → Nat → K) (i : Nat) (r : Nat → K) : Nat → Nat → K :=
  fun i2 j => if i2 = i then r j else y i2 j

/-- First pass of the matrix `backsub`: rows of `B` are treated as vectors
of right-hand sides; `val -= my_cholesky(i,j) * y[j]` is componentwise. -/
def forwardPassM (size : Nat) (buf : Nat → Nat → K) (B : Nat → Nat → K) : Nat → Nat → K :=
  (List.range size).foldl
    (fun y i =>
      setR y i ((List.range i).foldl (fun val j => fun c => val c - buf i j * y j c) (B i)))
    (fun _ _ => 0)

/-- Second pass of the matrix `backsub`: `y[i] *= (1/my_cholesky(i,i))`. -/
def diagPassM (size : Nat) (buf : Nat → Nat → K) (y : Nat → Nat → K) : Nat → Nat → K :=
  (List.range size).foldl (fun y i => setR y i (fun c => y i c * (1 / buf i i))) y

/-- Third pass of the matrix `backsub`, rowwise from `size - 1` down to `0`. -/
def backPassM (size : Nat) (buf : Nat → Nat → K) (y : Nat → Nat → K) : Nat → Nat → K :=
  ((List.range size).reverse).foldl
    (fun res i =>
      setR res i
        ((List.range' (i + 1) (size - (i + 1))).foldl
          (fun val j => fun c => val c - buf j i * res j c) (y i)))
    (fun _ _ => 0)

/-- The matrix returned by `backsub(B)` (after the size check). -/
def backsubMatBuf (size : Nat) (buf : Nat → Nat → K) (B : Nat → Nat → K) : Nat → Nat → K :=
  backPassM size buf (diagPassM size buf (forwardPassM size buf B))

/-- Identity matrix supplied by the collaborator (`Identity(num_rows)`). -/
def idMat : Nat → Nat → K :=
  fun i j => if i = j then 1 else 0

/-- Error raised by `SizeMismatch::test` (modelled from the spec: the test
lives in `TooN.h`, outside `src/`). -/
inductive TooNError where
  | DimensionMismatch
deriving DecidableEq

/-- A dynamically sized matrix handed to the engine by the external dense
linear-algebra collaborator. -/
structure DMat (K : Type*) where
  rows : Nat
  cols : Nat
  entry : Nat → Nat → K

/-- A dynamically sized vector handed to the engine by the collaborator. -/
structure DVec (K : Type*) where
  len : Nat
  entry : Nat → K

/-- The decomposition engine: the configured size and the owned buffer. -/
structure Cholesky (K : Type*) where
  size : Nat
  my_cholesky : Nat → Nat → K

/-- Member `compute(m)`: `SizeMismatch::test(m.num_rows(), m.num_cols())`,
then `SizeMismatch::test(m.num_rows(), my_cholesky.num_rows())`, then the
in-place decomposition.  Modelled as returning the new engine state plus
an optional error; on a mismatch the buffer is returned unchanged, which
expresses that the error is raised before any computation proceeds. -/
def Cholesky.compute (ch : Cholesky K) (M : DMat K) : Cholesky K × Option TooNError :=
  if M.rows ≠ M.cols then (ch, some TooNError.DimensionMismatch)
  else if M.rows ≠ ch.size then (ch, some TooNError.DimensionMismatch)
  else ({ size := ch.size, my_cholesky := computeBuf ch.size M.entry }, none)

/-- Member `backsub(v)` (vector overload): `SizeMismatch::test(size, v.size())`,
then the three substitution passes; returns a fresh vector of length `size`. -/
def Cholesky.backsub (ch : Cholesky K) (v : DVec K) : Except TooNError (DVec K) :=
  if ch.size ≠ v.len then Except.error TooNError.DimensionMismatch
  else Except.ok { len := ch.size, entry := backsubBuf ch.size ch.my_cholesky v.entry }

/-- Member `backsub(m)` (matrix overload): `SizeMismatch::test(size, m.num_rows())`,
then the three rowwise passes; the result has `size` rows and
`m.num_cols()` columns. -/
def Cholesky.backsubMat (ch : Cholesky K) (B : DMat K) : Except TooNError (DMat K) :=
  if ch.size ≠ B.rows then Except.error TooNError.DimensionMismatch
  else Except.ok { rows := ch.size, cols := B.cols
                   entry := backsubMatBuf ch.size ch.my_cholesky B.entry }

/-- Member `get_inverse()`: `backsub(Identity(num_rows))`. -/
def Cholesky.get_inverse (ch : Cholesky K) : Except TooNError (DMat K) :=
  ch.backsubMat { rows := ch.size, cols := ch.size, entry := idMat }

/-- Member `determinant()`: `answer = my_cholesky(0,0)`, then
`for(i = 1; i < num_rows; i++) answer *= my_cholesky(i,i)`. -/
def Cholesky.determinant (ch : Cholesky K) : K :=
  (List.range' 1 (ch.size - 1)).foldl
    (fun answer i => answer * ch.my_cholesky i i) (ch.my_cholesky 0 0)

/-- The buffer cells read by `determinant()`, in order: `(0,0)`
unconditionally, then `(i,i)` for `i = 1, …, num_rows - 1`. -/
def determinantAccesses (n : Nat) : List (Nat × Nat) :=
  (0, 0) :: (List.range' 1 (n - 1)).map (fun i => (i, i))

/-- Closed form of the unnormalized value `val` computed by `compute` at
cell `(r, c)` (for `c ≤ r`): the input entry corrected by the previously
processed columns, exactly as in the inner `col2` loop.  `chval m c c` is
the pivot `D[c]`, and `chval m r c * (1 / chval m c c)` is `L[r][c]`. -/
def chval (m : Nat → Nat → K) (r c : Nat) : K :=
  m r c - ∑ k : Fin c, chval m c ↑k * (chval m r ↑k * (1 / chval m ↑k ↑k))
termination_by c
decreasing_by
  all_goals exact k.isLt

/-- Closed form of the first `backsub` pass: forward substitution through
the unit lower triangle. -/
def ysol (buf : Nat → Nat → K) (v : Nat → K) (i : Nat) : K :=
  v i - ∑ j : Fin i, buf i ↑j * ysol buf v ↑j
termination_by i
decreasing_by
  exact j.isLt

/-- Closed form of the third `backsub` pass: back substitution through the
transposed unit lower triangle. -/
def xsol (n : Nat) (buf : Nat → Nat → K) (z : Nat → K) (i : Nat) : K :=
  z i - ∑ k : Fin (n - (i + 1)), buf (i + 1 + ↑k) i * xsol n buf z (i + 1 + ↑k)
termination_by n - i
decreasing_by
  have hk := k.isLt
  omega

/-- Intended contents of the buffer after the outer loop of `compute` has
processed all columns `< col`: finalized cells where `min i j < col`
(diagonal pivots, normalized lower entries, unnormalized upper scratch),
untouched input entries elsewhere. -/
def bufSpec (m : Nat → Nat → K) (n col : Nat) : Nat → Nat → K := fun i j =>
  if i < n ∧ j < n ∧ min i j < col then
    if i = j then chval m i i
    else if j < i then chval m i j * (1 / chval m j j)
    else chval m j i
  else m i j

/-- Intended contents of the buffer while the inner loop of column `col` has
processed all rows `< row`: on top of `bufSpec … col`, the diagonal pivot
at `(col,col)` (once `row > col`), the normalized entries at `(i,col)` and
the scratch entries at `(col,i)` for `col < i < row`. -/
def bufSpecIn (m : Nat → Nat → K) (n col row : Nat) : Nat → Nat → K := fun i j =>
  if i < n ∧ j < n ∧ min i j < col then
    if i = j then chval m i i
    else if j < i then chval m i j * (1 / chval m j j)
    else chval m j i
  else if i = col ∧ j = col ∧ col < row then chval m col col
  else if j = col ∧ col < i ∧ i < row then chval m i col * (1 / chval m col col)
  else if i = col ∧ col < j ∧ j < row then chval m j col
  else m i j

/-- The strict lower triangle of a buffer read as a unit lower triangular
`N × N` matrix (the diagonal of `L` is implicitly `1` and not stored). -/
def Lof (n : Nat) (buf : Nat → Nat → K) : Matrix (Fin n) (Fin n) K :=
  Matrix.of fun i j =>
    if (i : Nat) = (j : Nat) then 1
    else if (j : Nat) < (i : Nat) then buf ↑i ↑j
    else 0

/-- The diagonal of a buffer read as a diagonal `N × N` matrix. -/
def Dof (n : Nat) (buf : Nat → Nat → K) : Matrix (Fin n) (Fin n) K :=
  Matrix.diagonal (fun i : Fin n => buf ↑i ↑i)

/-- The symmetric matrix determined by the diagonal and strict lower
triangle of the input (the engine never reads the strict upper triangle). -/
def symLowerFin (m : Nat → Nat → K) (n : Nat) : Matrix (Fin n) (Fin n) K :=
  Matrix.of fun i j => if (j : Nat) ≤ (i : Nat) then m ↑i ↑j else m ↑j ↑i

/-- The input matrix restricted to an `N × N` Mathlib matrix. -/
def finMat (n : Nat) (m : Nat → Nat → K) : Matrix (Fin n) (Fin n) K :=
  Matrix.of fun i j => m ↑i ↑j

/-- Concrete scenario input `M = [[4, 2], [2, 3]]` (entries outside the
`2 × 2` square are irrelevant and set to `2`). -/
def mEx : Nat → Nat → ℚ :=
  fun i j => if i = 0 ∧ j = 0 then 4 else if i = 1 ∧ j = 1 then 3 else 2

/-- Concrete scenario right-hand side `v = (1, 1)`. -/
def vEx : Nat → ℚ :=
  fun _ => 1

/-- The concrete input with its strict upper triangle replaced by junk:
agrees with `mEx` on the diagonal and strict lower triangle. -/
def mExUpper : Nat → Nat → ℚ :=
  fun i j => if i < j then 99 else mEx i j

/-- The decomposed concrete buffer with its strict upper scratch triangle
replaced by junk: agrees with `computeBuf 2 mEx` on the diagonal and
strict lower triangle. -/
def bExUpper : Nat → Nat → ℚ :=
  fun i j => if i < j then 77 else computeBuf 2 mEx i j

theorem range'_snoc (s n : Nat) : List.range' s (n + 1) = List.range' s n ++ [s + n] := by
  have h := @List.range'_concat 1 s n
  simpa using h

theorem foldl_sub_range (f : Nat → K) (c : Nat) (a : K) :
    (List.range c).foldl (fun val k => val - f k) a = a - ∑ k ∈ Finset.range c, f k := by
  induction c generalizing a with
  | zero => simp
  | succ c ih =>
    rw [List.range_succ, List.foldl_append, ih, Finset.sum_range_succ, List.foldl_cons,
      List.foldl_nil, sub_sub]

theorem foldl_sub_range' (f : Nat → K) (len : Nat) :
    ∀ (s : Nat) (a : K), (List.range' s len).foldl (fun val k => val - f k) a
      = a - ∑ k ∈ Finset.range len, f (s + k) := by
  induction len with
  | zero => intro s a; simp
  | succ len ih =>
    intro s a
    rw [List.range'_succ, List.foldl_cons, ih, Finset.sum_range_succ', sub_sub]
    have hsum : ∑ k ∈ Finset.range len, f (s + 1 + k) = ∑ k ∈ Finset.range len, f (s + (k + 1)) :=
      Finset.sum_congr rfl (fun k _ => by rw [show s + 1 + k = s + (k + 1) from by omega])
    rw [add_comm (f s), hsum, Nat.add_zero]

theorem foldl_mul_range' (f : Nat → K) (len : Nat) :
    ∀ (s : Nat) (a : K), (List.range' s len).foldl (fun ans k => ans * f k) a
      = a * ∏ k ∈ Finset.range len, f (s + k) := by
  induction len with
  | zero => intro s a; simp
  | succ len ih =>
    intro s a
    rw [List.range'_succ, List.foldl_cons, ih, Finset.prod_range_succ']
    have hprod : ∏ k ∈ Finset.range len, f (s + 1 + k) = ∏ k ∈ Finset.range len, f (s + (k + 1)) :=
      Finset.prod_congr rfl (fun k _ => by rw [show s + 1 + k = s + (k + 1) from by omega])
    rw [hprod, Nat.add_zero, mul_assoc, mul_comm (f s)]

theorem foldl_pointwise (g : Nat → Nat → K) (l : List Nat) :
    ∀ (a : Nat → K) (c : Nat),
      (l.foldl (fun val j => fun x => val x - g j x) a) c
        = l.foldl (fun val j => val - g j c) (a c) := by
  induction l with
  | nil => intro a c; rfl
  | cons x xs ih => intro a c; rw [List.foldl_cons, List.foldl_cons, ih]

theorem chval_eq (m : Nat → Nat → K) (r c : Nat) :
    chval m r c
      = m r c - ∑ k ∈ Finset.range c, chval m c k * (chval m r k * (1 / chval m k k)) := by
  rw [chval]
  rw [Fin.sum_univ_eq_sum_range (fun k => chval m c k * (chval m r k * (1 / chval m k k))) c]

theorem ysol_eq (buf : Nat → Nat → K) (v : Nat → K) (i : Nat) :
    ysol buf v i = v i - ∑ j ∈ Finset.range i, buf i j * ysol buf v j := by
  rw [ysol]
  rw [Fin.sum_univ_eq_sum_range (fun j => buf i j * ysol buf v j) i]

theorem xsol_eq (n : Nat) (buf : Nat → Nat → K) (z : Nat → K) (i : Nat) :
    xsol n buf z i
      = z i - ∑ k ∈ Finset.range (n - (i + 1)), buf (i + 1 + k) i * xsol n buf z (i + 1 + k) := by
  rw [xsol]
  rw [Fin.sum_univ_eq_sum_range (fun k => buf (i + 1 + k) i * xsol n buf z (i + 1 + k))
    (n - (i + 1))]

theorem bufSpecIn_at_col (m : Nat → Nat → K) (n col : Nat) :
    bufSpecIn m n col col = bufSpec m n col := by
  funext i j
  simp only [bufSpecIn, bufSpec]
  by_cases h1 : i < n ∧ j < n ∧ min i j < col
  · rw [if_pos h1, if_pos h1]
  · rw [if_neg h1, if_neg h1,
      if_neg (show ¬(i = col ∧ j = col ∧ col < col) from by omega),
      if_neg (show ¬(j = col ∧ col < i ∧ i < col) from by omega),
      if_neg (show ¬(i = col ∧ col < j ∧ j < col) from by omega)]

theorem bufSpecIn_at_n (m : Nat → Nat → K) (n col : Nat) (hcol : col < n) :
    bufSpecIn m n col n = bufSpec m n (col + 1) := by
  funext i j
  simp only [bufSpecIn, bufSpec]
  by_cases h1 : i < n ∧ j < n ∧ min i j < col
  · rw [if_pos h1, if_pos (show i < n ∧ j < n ∧ min i j < col + 1 from ⟨h1.1, h1.2.1, by omega⟩)]
  · rw [if_neg h1]
    by_cases h2 : i = col ∧ j = col ∧ col < n
    · obtain ⟨hi, hj, -⟩ := h2
      rw [if_pos (show i = col ∧ j = col ∧ col < n from ⟨hi, hj, hcol⟩),
        if_pos (show i < n ∧ j < n ∧ min i j < col + 1 from by omega),
        if_pos (show i = j from by omega), hi]
    · rw [if_neg h2]
      by_cases h3 : j = col ∧ col < i ∧ i < n
      · obtain ⟨hj, hci, hin⟩ := h3
        rw [if_pos (show j = col ∧ col < i ∧ i < n from ⟨hj, hci, hin⟩),
          if_pos (show i < n ∧ j < n ∧ min i j < col + 1 from by omega),
          if_neg (show ¬ i = j from by omega), if_pos (show j < i from by omega), hj]
      · rw [if_neg h3]
        by_cases h4 : i = col ∧ col < j ∧ j < n
        · obtain ⟨hi, hcj, hjn⟩ := h4
          rw [if_pos (show i = col ∧ col < j ∧ j < n from ⟨hi, hcj, hjn⟩),
            if_pos (show i < n ∧ j < n ∧ min i j < col + 1 from by omega),
            if_neg (show ¬ i = j from by omega), if_neg (show ¬ j < i from by omega), hi]
        · rw [if_neg h4, if_neg (show ¬(i < n ∧ j < n ∧ min i j < col + 1) from by omega)]

theorem bufSpecIn_read_cur (m : Nat → Nat → K) (n col row : Nat) (hcr : col ≤ row) :
    bufSpecIn m n col row row col = m row col := by
  unfold bufSpecIn
  rw [if_neg (show ¬(row < n ∧ col < n ∧ min row col < col) from by omega),
    if_neg (show ¬(row = col ∧ col = col ∧ col < row) from by omega),
    if_neg (show ¬(col = col ∧ col < row ∧ row < row) from by omega),
    if_neg (show ¬(row = col ∧ col < col ∧ col < row) from by omega)]

theorem bufSpecIn_read_scratch (m : Nat → Nat → K) (n col row k : Nat)
    (hk : k < col) (hcol : col < n) :
    bufSpecIn m n col row k col = chval m col k := by
  unfold bufSpecIn
  rw [if_pos (show k < n ∧ col < n ∧ min k col < col from ⟨by omega, hcol, by omega⟩),
    if_neg (show ¬ k = col from by omega), if_neg (show ¬ col < k from by omega)]

theorem bufSpecIn_read_lower (m : Nat → Nat → K) (n col row k : Nat)
    (hk : k < col) (hcr : col ≤ row) (hrow : row < n) :
    bufSpecIn m n col row row k = chval m row k * (1 / chval m k k) := by
  unfold bufSpecIn
  rw [if_pos (show row < n ∧ k < n ∧ min row k < col from ⟨hrow, by omega, by omega⟩),
    if_neg (show ¬ row = k from by omega), if_pos (show k < row from by omega)]

theorem colVal_spec (m : Nat → Nat → K) (n col row : Nat) (hcol : col < n)
    (hcr : col ≤ row) (hrow : row < n) :
    colVal (bufSpecIn m n col row) col row = chval m row col := by
  unfold colVal
  rw [foldl_sub_range (fun k => bufSpecIn m n col row k col * bufSpecIn m n col row row k)]
  rw [bufSpecIn_read_cur m n col row hcr, chval_eq]
  congr 1
  refine Finset.sum_congr rfl (fun k hk => ?_)
  rw [Finset.mem_range] at hk
  rw [bufSpecIn_read_scratch m n col row k hk hcol,
    bufSpecIn_read_lower m n col row k hk hcr hrow]

theorem setE_diag_spec (m : Nat → Nat → K) (n col : Nat) (hcol : col < n) :
    setE (bufSpecIn m n col col) col col (chval m col col) = bufSpecIn m n col (col + 1) := by
  funext i j
  simp only [setE, bufSpecIn]
  split_ifs <;> first | rfl | omega

theorem setE_offdiag_spec (m : Nat → Nat → K) (n col row : Nat) (hcol : col < n)
    (hlt : col < row) (hrow : row < n) :
    setE (setE (bufSpecIn m n col row) col row (chval m row col)) row col
        (chval m row col * (1 / chval m col col))
      = bufSpecIn m n col (row + 1) := by
  funext i j
  simp only [setE, bufSpecIn]
  by_cases hA : i = row ∧ j = col
  · obtain ⟨rfl, rfl⟩ := hA
    rw [if_pos ⟨rfl, rfl⟩, if_neg (by omega), if_neg (by omega),
      if_pos (show j = j ∧ j < i ∧ i < i + 1 from ⟨rfl, hlt, by omega⟩)]
  · rw [if_neg hA]
    by_cases hB : i = col ∧ j = row
    · obtain ⟨rfl, rfl⟩ := hB
      rw [if_pos ⟨rfl, rfl⟩, if_neg (by omega), if_neg (by omega), if_neg (by omega),
        if_pos (show i = i ∧ i < j ∧ j < j + 1 from ⟨rfl, hlt, by omega⟩)]
    · rw [if_neg hB]
      by_cases h1 : i < n ∧ j < n ∧ min i j < col
      · rw [if_pos h1, if_pos h1]
      · rw [if_neg h1, if_neg h1]
        by_cases h2 : i = col ∧ j = col ∧ col < row
        · rw [if_pos h2, if_pos ⟨h2.1, h2.2.1, by omega⟩]
        · rw [if_neg h2]
          by_cases h2R : i = col ∧ j = col ∧ col < row + 1
          · exact absurd ⟨h2R.1, h2R.2.1, hlt⟩ h2
          · rw [if_neg h2R]
            by_cases h3 : j = col ∧ col < i ∧ i < row
            · rw [if_pos h3, if_pos ⟨h3.1, h3.2.1, by omega⟩]
            · rw [if_neg h3]
              by_cases h3R : j = col ∧ col < i ∧ i < row + 1
              · exact absurd ⟨by omega, h3R.1⟩ hA
              · rw [if_neg h3R]
                by_cases h4 : i = col ∧ col < j ∧ j < row
                · rw [if_pos h4, if_pos ⟨h4.1, h4.2.1, by omega⟩]
                · rw [if_neg h4]
                  by_cases h4R : i = col ∧ col < j ∧ j < row + 1
                  · exact absurd ⟨h4R.1, by omega⟩ hB
                  · rw [if_neg h4R]

theorem innerStep_eval (m : Nat → Nat → K) (n col row : Nat) (hcol : col < n)
    (hcr : col ≤ row) (hrow : row < n) :
    innerStep col (bufSpecIn m n col row, if col < row then 1 / chval m col col else 0) row
      = (bufSpecIn m n col (row + 1), 1 / chval m col col) := by
  simp only [innerStep]
  by_cases hrc : row = col
  · rw [if_pos hrc, colVal_spec m n col row hcol hcr hrow, hrc]
    rw [Prod.mk.injEq]
    exact ⟨setE_diag_spec m n col hcol, rfl⟩
  · rw [if_neg hrc, if_pos (show col < row from by omega),
      colVal_spec m n col row hcol hcr hrow]
    rw [Prod.mk.injEq]
    exact ⟨setE_offdiag_spec m n col row hcol (by omega) hrow, rfl⟩

theorem innerFold (m : Nat → Nat → K) (n col : Nat) (hcol : col < n) :
    ∀ r, col + r ≤ n →
      (List.range' col r).foldl (innerStep col) (bufSpec m n col, (0 : K))
        = (bufSpecIn m n col (col + r), if 0 < r then 1 / chval m col col else 0) := by
  intro r
  induction r with
  | zero =>
    intro _
    rw [show List.range' col 0 = ([] : List Nat) from rfl, List.foldl_nil,
      Nat.add_zero, bufSpecIn_at_col]
    rfl
  | succ r ih =>
    intro h
    rw [range'_snoc, List.foldl_append, ih (by omega), List.foldl_cons, List.foldl_nil]
    have hsnd : (if 0 < r then 1 / chval m col col else (0 : K))
        = (if col < col + r then 1 / chval m col col else 0) := by
      by_cases h0 : 0 < r
      · rw [if_pos h0, if_pos (show col < col + r from by omega)]
      · rw [if_neg h0, if_neg (show ¬ col < col + r from by omega)]
    rw [hsnd, innerStep_eval m n col (col + r) hcol (by omega) (by omega)]
    rw [if_pos (show 0 < r + 1 from by omega)]
    rfl

theorem computeBuf_eq (n : Nat) (m : Nat → Nat → K) :
    computeBuf n m = bufSpec m n n := by
  have main : ∀ c, c ≤ n → (List.range c).foldl (computeCol n) m = bufSpec m n c := by
    intro c
    induction c with
    | zero =>
      intro _
      rw [show List.range 0 = ([] : List Nat) from rfl, List.foldl_nil]
      funext i j
      simp only [bufSpec]
      rw [if_neg (by omega)]
    | succ c ih =>
      intro hc
      rw [List.range_succ, List.foldl_append, ih (by omega), List.foldl_cons, List.foldl_nil]
      unfold computeCol
      rw [innerFold m n c (by omega) (n - c) (by omega),
        show c + (n - c) = n from by omega, bufSpecIn_at_n m n c (by omega)]
  exact main n le_rfl

theorem computeBuf_diag (n : Nat) (m : Nat → Nat → K) (c : Nat) (hc : c < n) :
    computeBuf n m c c = chval m c c := by
  rw [computeBuf_eq]
  unfold bufSpec
  rw [if_pos (show c < n ∧ c < n ∧ min c c < n from ⟨hc, hc, by omega⟩),
    if_pos (show c = c from rfl)]

theorem computeBuf_lower (n : Nat) (m : Nat → Nat → K) (r c : Nat) (hc : c < r) (hr : r < n) :
    computeBuf n m r c = chval m r c * (1 / chval m c c) := by
  rw [computeBuf_eq]
  unfold bufSpec
  rw [if_pos (show r < n ∧ c < n ∧ min r c < n from ⟨hr, by omega, by omega⟩),
    if_neg (show ¬ r = c from by omega), if_pos hc]

theorem computeBuf_upper (n : Nat) (m : Nat → Nat → K) (r c : Nat) (hc : c < r) (hr : r < n) :
    computeBuf n m c r = chval m r c := by
  rw [computeBuf_eq]
  unfold bufSpec
  rw [if_pos (show c < n ∧ r < n ∧ min c r < n from ⟨by omega, hr, by omega⟩),
    if_neg (show ¬ c = r from by omega), if_neg (show ¬ r < c from by omega)]

theorem forwardPass_inv (buf : Nat → Nat → K) (v : Nat → K) :
    ∀ c, (List.range c).foldl
        (fun y i => setV y i ((List.range i).foldl (fun val j => val - buf i j * y j) (v i)))
        (fun _ => 0)
      = fun i => if i < c then ysol buf v i else 0 := by
  intro c
  induction c with
  | zero =>
    funext i
    rw [show List.range 0 = ([] : List Nat) from rfl, List.foldl_nil,
      if_neg (show ¬ i < 0 from by omega)]
  | succ c ih =>
    rw [List.range_succ, List.foldl_append, ih]
    show setV (fun i => if i < c then ysol buf v i else 0) c
        ((List.range c).foldl
          (fun val j => val - buf c j * (if j < c then ysol buf v j else 0)) (v c))
      = fun i => if i < c + 1 then ysol buf v i else 0
    have hin : (List.range c).foldl
        (fun val j => val - buf c j * (if j < c then ysol buf v j else 0)) (v c)
        = ysol buf v c := by
      rw [foldl_sub_range (fun j => buf c j * (if j < c then ysol buf v j else 0)), ysol_eq]
      congr 1
      refine Finset.sum_congr rfl (fun j hj => ?_)
      rw [Finset.mem_range] at hj
      rw [if_pos hj]
    rw [hin]
    funext i
    unfold setV
    by_cases hic : i = c
    · rw [if_pos hic, if_pos (show i < c + 1 from by omega), hic]
    · rw [if_neg hic]
      show (if i < c then ysol buf v i else 0) = if i < c + 1 then ysol buf v i else 0
      by_cases hlt : i < c
      · rw [if_pos hlt, if_pos (show i < c + 1 from by omega)]
      · rw [if_neg hlt, if_neg (show ¬ i < c + 1 from by omega)]

theorem forwardPass_eq (n : Nat) (buf : Nat → Nat → K) (v : Nat → K) :
    forwardPass n buf v = fun i => if i < n then ysol buf v i else 0 := by
  unfold forwardPass
  exact forwardPass_inv buf v n

theorem diagPass_inv (buf : Nat → Nat → K) :
    ∀ c (y : Nat → K), (List.range c).foldl (fun y i => setV y i (y i / buf i i)) y
      = fun i => if i < c then y i / buf i i else y i := by
  intro c
  induction c with
  | zero =>
    intro y
    funext i
    rw [show List.range 0 = ([] : List Nat) from rfl, List.foldl_nil,
      if_neg (show ¬ i < 0 from by omega)]
  | succ c ih =>
    intro y
    rw [List.range_succ, List.foldl_append, ih y]
    show setV (fun i => if i < c then y i / buf i i else y i) c
        ((if c < c then y c / buf c c else y c) / buf c c)
      = fun i => if i < c + 1 then y i / buf i i else y i
    rw [if_neg (show ¬ c < c from by omega)]
    funext i
    unfold setV
    by_cases hic : i = c
    · rw [if_pos hic, if_pos (show i < c + 1 from by omega), hic]
    · rw [if_neg hic]
      show (if i < c then y i / buf i i else y i) = if i < c + 1 then y i / buf i i else y i
      by_cases hlt : i < c
      · rw [if_pos hlt, if_pos (show i < c + 1 from by omega)]
      · rw [if_neg hlt, if_neg (show ¬ i < c + 1 from by omega)]

theorem diagPass_eq (n : Nat) (buf : Nat → Nat → K) (y : Nat → K) :
    diagPass n buf y = fun i => if i < n then y i / buf i i else y i := by
  unfold diagPass
  exact diagPass_inv buf n y

theorem backPass_inv (n : Nat) (buf : Nat → Nat → K) (z : Nat → K) :
    ∀ c, c ≤ n →
      ∀ res : Nat → K, (∀ j, res j = if c ≤ j ∧ j < n then xsol n buf z j else 0) →
      (List.range c).reverse.foldl
          (fun res i =>
            setV res i
              ((List.range' (i + 1) (n - (i + 1))).foldl
                (fun val j => val - buf j i * res j) (z i)))
          res
        = fun j => if j < n then xsol n buf z j else 0 := by
  intro c
  induction c with
  | zero =>
    intro _ res hres
    rw [show (List.range 0).reverse = ([] : List Nat) from rfl, List.foldl_nil]
    funext j
    rw [hres j]
    by_cases hj : j < n
    · rw [if_pos (show 0 ≤ j ∧ j < n from ⟨by omega, hj⟩), if_pos hj]
    · rw [if_neg (show ¬(0 ≤ j ∧ j < n) from by omega), if_neg hj]
  | succ c ih =>
    intro hc res hres
    rw [List.range_succ, List.reverse_append,
      show ([c] : List Nat).reverse = [c] from rfl, List.singleton_append, List.foldl_cons]
    refine ih (by omega) _ (fun j => ?_)
    show setV res c
        ((List.range' (c + 1) (n - (c + 1))).foldl (fun val j => val - buf j c * res j) (z c)) j
      = if c ≤ j ∧ j < n then xsol n buf z j else 0
    have hin : (List.range' (c + 1) (n - (c + 1))).foldl
        (fun val j => val - buf j c * res j) (z c) = xsol n buf z c := by
      rw [foldl_sub_range' (fun j => buf j c * res j) (n - (c + 1)) (c + 1) (z c), xsol_eq]
      congr 1
      refine Finset.sum_congr rfl (fun k hk => ?_)
      rw [Finset.mem_range] at hk
      rw [hres (c + 1 + k), if_pos (show c + 1 ≤ c + 1 + k ∧ c + 1 + k < n from by omega)]
    rw [hin]
    unfold setV
    by_cases hjc : j = c
    · rw [if_pos hjc, if_pos (show c ≤ j ∧ j < n from by omega), hjc]
    · rw [if_neg hjc, hres j]
      by_cases hj : c + 1 ≤ j ∧ j < n
      · rw [if_pos hj, if_pos (show c ≤ j ∧ j < n from by omega)]
      · rw [if_neg hj, if_neg (show ¬(c ≤ j ∧ j < n) from by omega)]

theorem backPass_eq (n : Nat) (buf : Nat → Nat → K) (z : Nat → K) :
    backPass n buf z = fun j => if j < n then xsol n buf z j else 0 := by
  unfold backPass
  refine backPass_inv n buf z n le_rfl (fun _ => 0) (fun j => ?_)
  rw [if_neg (show ¬(n ≤ j ∧ j < n) from by omega)]

theorem xsol_congr (n : Nat) (buf : Nat → Nat → K) (z1 z2 : Nat → K)
    (h : ∀ j, j < n → z1 j = z2 j) :
    ∀ d i, n - i ≤ d → i < n → xsol n buf z1 i = xsol n buf z2 i := by
  intro d
  induction d with
  | zero => intro i hd hi; omega
  | succ d ih =>
    intro i hd hi
    rw [xsol_eq, xsol_eq, h i hi]
    congr 1
    refine Finset.sum_congr rfl (fun k hk => ?_)
    rw [Finset.mem_range] at hk
    rw [ih (i + 1 + k) (by omega) (by omega)]

theorem backsubBuf_eq (n : Nat) (buf : Nat → Nat → K) (v : Nat → K) :
    backsubBuf n buf v
      = fun i => if i < n then
          xsol n buf (fun j => if j < n then ysol buf v j / buf j j else 0) i
        else 0 := by
  unfold backsubBuf
  rw [forwardPass_eq n buf v, diagPass_eq n buf, backPass_eq n buf]
  funext i
  by_cases hi : i < n
  · rw [if_pos hi, if_pos hi]
    refine xsol_congr n buf _ _ (fun j hj => ?_) (n - i) i le_rfl hi
    rw [if_pos hj, if_pos hj, if_pos hj]
  · rw [if_neg hi, if_neg hi]

theorem passM_rel (buf : Nat → Nat → K) (B : Nat → Nat → K) (c : Nat) :
    ∀ (l : List Nat) (Y : Nat → Nat → K) (y : Nat → K), (∀ i, Y i c = y i) →
      ∀ i, (l.foldl
          (fun y2 i => setR y2 i ((List.range i).foldl
            (fun val j => fun x => val x - buf i j * y2 j x) (B i))) Y) i c
        = (l.foldl
          (fun y2 i => setV y2 i ((List.range i).foldl
            (fun val j => val - buf i j * y2 j) (B i c))) y) i := by
  intro l
  induction l with
  | nil => intro Y y h i; exact h i
  | cons x xs ih =>
    intro Y y h i
    rw [List.foldl_cons, List.foldl_cons]
    refine ih _ _ (fun i2 => ?_) i
    show setR Y x
        ((List.range x).foldl (fun val j => fun cc => val cc - buf x j * Y j cc) (B x)) i2 c
      = setV y x ((List.range x).foldl (fun val j => val - buf x j * y j) (B x c)) i2
    unfold setR setV
    by_cases hix : i2 = x
    · rw [if_pos hix, if_pos hix]
      rw [foldl_pointwise (fun j cc => buf x j * Y j cc) (List.range x) (B x) c]
      rw [foldl_sub_range (fun j => buf x j * Y j c), foldl_sub_range (fun j => buf x j * y j)]
      congr 1
      exact Finset.sum_congr rfl (fun j _ => by rw [h j])
    · rw [if_neg hix, if_neg hix]
      exact h i2

theorem forwardPassM_col (n : Nat) (buf : Nat → Nat → K) (B : Nat → Nat → K) (c i : Nat) :
    forwardPassM n buf B i c = forwardPass n buf (fun r => B r c) i := by
  unfold forwardPassM forwardPass
  exact passM_rel buf B c (List.range n) (fun _ _ => 0) (fun _ => 0) (fun _ => rfl) i

theorem diagM_rel (buf : Nat → Nat → K) (c : Nat) :
    ∀ (l : List Nat) (Y : Nat → Nat → K) (y : Nat → K), (∀ i, Y i c = y i) →
      ∀ i, (l.foldl (fun y2 i => setR y2 i (fun cc => y2 i cc * (1 / buf i i))) Y) i c
        = (l.foldl (fun y2 i => setV y2 i (y2 i / buf i i)) y) i := by
  intro l
  induction l with
  | nil => intro Y y h i; exact h i
  | cons x xs ih =>
    intro Y y h i
    rw [List.foldl_cons, List.foldl_cons]
    refine ih _ _ (fun i2 => ?_) i
    show setR Y x (fun cc => Y x cc * (1 / buf x x)) i2 c
      = setV y x (y x / buf x x) i2
    unfold setR setV
    by_cases hix : i2 = x
    · rw [if_pos hix, if_pos hix]
      show Y x c * (1 / buf x x) = y x / buf x x
      rw [h x, mul_one_div]
    · rw [if_neg hix, if_neg hix]
      exact h i2

theorem backM_rel (n : Nat) (buf : Nat → Nat → K) (c : Nat)
    (yM : Nat → Nat → K) (yV : Nat → K) (hy : ∀ i, yM i c = yV i) :
    ∀ (l : List Nat) (RM : Nat → Nat → K) (rv : Nat → K), (∀ i, RM i c = rv i) →
      ∀ i, (l.foldl (fun res i => setR res i
              ((List.range' (i + 1) (n - (i + 1))).foldl
                (fun val j => fun cc => val cc - buf j i * res j cc) (yM i))) RM) i c
        = (l.foldl (fun res i => setV res i
              ((List.range' (i + 1) (n - (i + 1))).foldl
                (fun val j => val - buf j i * res j) (yV i))) rv) i := by
  intro l
  induction l with
  | nil => intro RM rv h i; exact h i
  | cons x xs ih =>
    intro RM rv h i
    rw [List.foldl_cons, List.foldl_cons]
    refine ih _ _ (fun i2 => ?_) i
    show setR RM x
        ((List.range' (x + 1) (n - (x + 1))).foldl
          (fun val j => fun cc => val cc - buf j x * RM j cc) (yM x)) i2 c
      = setV rv x
        ((List.range' (x + 1) (n - (x + 1))).foldl
          (fun val j => val - buf j x * rv j) (yV x)) i2
    unfold setR setV
    by_cases hix : i2 = x
    · rw [if_pos hix, if_pos hix]
      rw [foldl_pointwise (fun j cc => buf j x * RM j cc) (List.range' (x + 1) (n - (x + 1)))
        (yM x) c]
      rw [foldl_sub_range' (fun j => buf j x * RM j c) (n - (x + 1)) (x + 1) (yM x c),
        foldl_sub_range' (fun j => buf j x * rv j) (n - (x + 1)) (x + 1) (yV x)]
      rw [hy x]
      congr 1
      exact Finset.sum_congr rfl (fun k _ => by rw [h (x + 1 + k)])
    · rw [if_neg hix, if_neg hix]
      exact h i2

theorem backsubMatBuf_col (n : Nat) (buf : Nat → Nat → K) (B : Nat → Nat → K) (c i : Nat) :
    backsubMatBuf n buf B i c = backsubBuf n buf (fun r => B r c) i := by
  unfold backsubMatBuf backsubBuf backPassM backPass
  refine backM_rel n buf c (diagPassM n buf (forwardPassM n buf B))
    (diagPass n buf (forwardPass n buf (fun r => B r c))) (fun i2 => ?_)
    (List.range n).reverse _ _ (fun _ => rfl) i
  unfold diagPassM diagPass
  refine diagM_rel buf c (List.range n) _ _ (fun i3 => ?_) i2
  exact forwardPassM_col n buf B c i3

theorem Lof_mulVec_ysol (n : Nat) (buf : Nat → Nat → K) (v : Nat → K) :
    (Lof n buf).mulVec (fun i : Fin n => ysol buf v ↑i) = fun i : Fin n => v ↑i := by
  funext i
  show (∑ k : Fin n, Lof n buf i k * ysol buf v ↑k) = v ↑i
  simp only [Lof, Matrix.of_apply]
  rw [Fin.sum_univ_eq_sum_range
    (fun k => (if (↑i : Nat) = k then 1 else if k < (↑i : Nat) then buf ↑i k else 0)
      * ysol buf v k) n]
  rw [← Finset.sum_subset (Finset.range_subset.mpr (show (↑i : Nat) + 1 ≤ n from i.isLt))
    (fun x _ hx => ?van)]
  case van =>
    rw [Finset.mem_range] at hx
    rw [if_neg (show ¬ (↑i : Nat) = x from by omega),
      if_neg (show ¬ x < (↑i : Nat) from by omega), zero_mul]
  rw [Finset.sum_range_succ, if_pos (show (↑i : Nat) = ↑i from rfl), one_mul]
  have hterm : ∀ k ∈ Finset.range (↑i : Nat),
      (if (↑i : Nat) = k then 1 else if k < (↑i : Nat) then buf ↑i k else 0) * ysol buf v k
        = buf ↑i k * ysol buf v k := by
    intro k hk
    rw [Finset.mem_range] at hk
    rw [if_neg (show ¬ (↑i : Nat) = k from by omega), if_pos hk]
  rw [Finset.sum_congr rfl hterm, ysol_eq, add_sub_cancel]

theorem LofT_mulVec_xsol (n : Nat) (buf : Nat → Nat → K) (z : Nat → K) :
    (Lof n buf)ᵀ.mulVec (fun i : Fin n => xsol n buf z ↑i) = fun i : Fin n => z ↑i := by
  funext i
  show (∑ k : Fin n, (Lof n buf)ᵀ i k * xsol n buf z ↑k) = z ↑i
  simp only [Matrix.transpose_apply, Lof, Matrix.of_apply]
  rw [Fin.sum_univ_eq_sum_range
    (fun k => (if k = (↑i : Nat) then 1 else if (↑i : Nat) < k then buf k ↑i else 0)
      * xsol n buf z k) n]
  rw [Finset.range_eq_Ico,
    ← Finset.sum_Ico_consecutive _ (show 0 ≤ (↑i : Nat) + 1 from by omega)
      (show (↑i : Nat) + 1 ≤ n from i.isLt)]
  have hfirst : ∑ k ∈ Finset.Ico 0 ((↑i : Nat) + 1),
      (if k = (↑i : Nat) then 1 else if (↑i : Nat) < k then buf k ↑i else 0)
        * xsol n buf z k = xsol n buf z ↑i := by
    rw [Finset.sum_eq_single (↑i : Nat)]
    · rw [if_pos rfl, one_mul]
    · intro b hb hbne
      rw [Finset.mem_Ico] at hb
      rw [if_neg hbne, if_neg (show ¬ (↑i : Nat) < b from by omega), zero_mul]
    · intro hni
      exact absurd (Finset.mem_Ico.mpr ⟨by omega, by omega⟩) hni
  have hrest : ∑ k ∈ Finset.Ico ((↑i : Nat) + 1) n,
      (if k = (↑i : Nat) then 1 else if (↑i : Nat) < k then buf k ↑i else 0)
        * xsol n buf z k
      = ∑ k ∈ Finset.range (n - ((↑i : Nat) + 1)),
          buf ((↑i : Nat) + 1 + k) ↑i * xsol n buf z ((↑i : Nat) + 1 + k) := by
    rw [Finset.sum_Ico_eq_sum_range]
    refine Finset.sum_congr rfl (fun k hk => ?_)
    rw [if_neg (show ¬ (↑i : Nat) + 1 + k = (↑i : Nat) from by omega),
      if_pos (show (↑i : Nat) < (↑i : Nat) + 1 + k from by omega)]
  rw [hfirst, hrest, xsol_eq, sub_add_cancel]

theorem Dof_mulVec_div (n : Nat) (buf : Nat → Nat → K)
    (hpiv : ∀ k, k < n → buf k k ≠ 0) (y : Nat → K) :
    (Dof n buf).mulVec (fun i : Fin n => y ↑i / buf ↑i ↑i) = fun i : Fin n => y ↑i := by
  funext i
  simp only [Dof]
  rw [Matrix.mulVec_diagonal, mul_comm, div_mul_cancel₀ _ (hpiv ↑i i.isLt)]

theorem ldlt_entry_low (n : Nat) (m : Nat → Nat → K)
    (hpiv : ∀ k, k < n → chval m k k ≠ 0) (i j : Fin n) (hij : (↑j : Nat) ≤ ↑i) :
    (∑ k : Fin n, Lof n (computeBuf n m) i k * computeBuf n m ↑k ↑k
        * Lof n (computeBuf n m) j k)
      = m ↑i ↑j := by
  simp only [Lof, Matrix.of_apply]
  rw [Fin.sum_univ_eq_sum_range
    (fun k => (if (↑i : Nat) = k then 1 else if k < (↑i : Nat) then computeBuf n m ↑i k else 0)
      * computeBuf n m k k
      * (if (↑j : Nat) = k then 1 else if k < (↑j : Nat) then computeBuf n m ↑j k else 0)) n]
  rw [← Finset.sum_subset (Finset.range_subset.mpr (show (↑j : Nat) + 1 ≤ n from j.isLt))
    (fun x _ hx => ?van)]
  case van =>
    rw [Finset.mem_range] at hx
    rw [if_neg (show ¬ (↑j : Nat) = x from by omega),
      if_neg (show ¬ x < (↑j : Nat) from by omega), mul_zero]
  rw [Finset.sum_range_succ]
  have hsum : ∑ k ∈ Finset.range (↑j : Nat),
      (if (↑i : Nat) = k then 1 else if k < (↑i : Nat) then computeBuf n m ↑i k else 0)
        * computeBuf n m k k
        * (if (↑j : Nat) = k then 1 else if k < (↑j : Nat) then computeBuf n m ↑j k else 0)
      = ∑ k ∈ Finset.range (↑j : Nat),
          chval m ↑j k * (chval m ↑i k * (1 / chval m k k)) := by
    refine Finset.sum_congr rfl (fun k hk => ?_)
    rw [Finset.mem_range] at hk
    have hkn : k < n := by omega
    have hk0 : chval m k k ≠ 0 := hpiv k hkn
    rw [if_neg (show ¬ (↑i : Nat) = k from by omega), if_pos (show k < (↑i : Nat) from by omega),
      if_neg (show ¬ (↑j : Nat) = k from by omega), if_pos hk,
      computeBuf_lower n m ↑i k (by omega) i.isLt,
      computeBuf_lower n m ↑j k hk j.isLt,
      computeBuf_diag n m k hkn]
    field_simp
    ring
  rw [hsum]
  have hlast :
      (if (↑i : Nat) = ↑j then 1 else if (↑j : Nat) < (↑i : Nat) then computeBuf n m ↑i ↑j else 0)
        * computeBuf n m ↑j ↑j
        * (if (↑j : Nat) = ↑j then 1 else if (↑j : Nat) < (↑j : Nat) then computeBuf n m ↑j ↑j else 0)
      = chval m ↑i ↑j := by
    rw [if_pos (show (↑j : Nat) = ↑j from rfl), mul_one, computeBuf_diag n m ↑j j.isLt]
    by_cases hij2 : (↑i : Nat) = ↑j
    · rw [if_pos hij2, one_mul, hij2]
    · rw [if_neg hij2, if_pos (show (↑j : Nat) < ↑i from by omega),
        computeBuf_lower n m ↑i ↑j (by omega) i.isLt]
      have hj0 : chval m ↑j ↑j ≠ 0 := hpiv ↑j j.isLt
      field_simp
  rw [hlast, chval_eq m ↑i ↑j, add_sub_cancel]

theorem ldlt_master (n : Nat) (m : Nat → Nat → K)
    (hpiv : ∀ k, k < n → chval m k k ≠ 0) :
    Lof n (computeBuf n m) * Dof n (computeBuf n m) * (Lof n (computeBuf n m))ᵀ
      = symLowerFin m n := by
  have hP : ∀ i j : Fin n,
      (Lof n (computeBuf n m) * Dof n (computeBuf n m) * (Lof n (computeBuf n m))ᵀ) i j
        = ∑ k : Fin n, Lof n (computeBuf n m) i k * computeBuf n m ↑k ↑k
            * Lof n (computeBuf n m) j k := by
    intro i j
    rw [Matrix.mul_apply]
    refine Finset.sum_congr rfl (fun k _ => ?_)
    rw [Matrix.transpose_apply]
    congr 1
    simp only [Dof]
    rw [Matrix.mul_diagonal]
  ext i j
  rw [hP i j]
  by_cases hij : (↑j : Nat) ≤ ↑i
  · rw [ldlt_entry_low n m hpiv i j hij]
    simp only [symLowerFin, Matrix.of_apply]
    rw [if_pos hij]
  · have hsym : ∑ k : Fin n, Lof n (computeBuf n m) i k * computeBuf n m ↑k ↑k
        * Lof n (computeBuf n m) j k
        = ∑ k : Fin n, Lof n (computeBuf n m) j k * computeBuf n m ↑k ↑k
            * Lof n (computeBuf n m) i k :=
      Finset.sum_congr rfl (fun k _ => by ring)
    rw [hsym, ldlt_entry_low n m hpiv j i (by omega)]
    simp only [symLowerFin, Matrix.of_apply]
    rw [if_neg hij]

theorem backsub_mulVec (n : Nat) (m : Nat → Nat → K) (v : Nat → K)
    (hpiv : ∀ k, k < n → chval m k k ≠ 0) :
    (symLowerFin m n).mulVec (fun i : Fin n => backsubBuf n (computeBuf n m) v ↑i)
      = fun i : Fin n => v ↑i := by
  have hpivB : ∀ k, k < n → computeBuf n m k k ≠ 0 := by
    intro k hk
    rw [computeBuf_diag n m k hk]
    exact hpiv k hk
  have hx : (fun i : Fin n => backsubBuf n (computeBuf n m) v ↑i)
      = fun i : Fin n => xsol n (computeBuf n m)
          (fun j => ysol (computeBuf n m) v j / computeBuf n m j j) ↑i := by
    funext i
    rw [backsubBuf_eq]
    show (if (↑i : Nat) < n then
        xsol n (computeBuf n m)
          (fun j => if j < n then ysol (computeBuf n m) v j / computeBuf n m j j else 0) ↑i
      else 0) = _
    rw [if_pos i.isLt]
    exact xsol_congr n (computeBuf n m) _ _ (fun j hj => if_pos hj) (n - ↑i) ↑i le_rfl i.isLt
  rw [hx, ← ldlt_master n m hpiv, ← Matrix.mulVec_mulVec, ← Matrix.mulVec_mulVec,
    LofT_mulVec_xsol n (computeBuf n m),
    Dof_mulVec_div n (computeBuf n m) hpivB (fun j => ysol (computeBuf n m) v j),
    Lof_mulVec_ysol n (computeBuf n m) v]

theorem det_Lof (n : Nat) (buf : Nat → Nat → K) : (Lof n buf).det = 1 := by
  have htri : ((Lof n buf)ᵀ).BlockTriangular id := by
    intro i j hji
    have hji2 : (↑j : Nat) < ↑i := hji
    rw [Matrix.transpose_apply]
    simp only [Lof, Matrix.of_apply]
    rw [if_neg (show ¬ (↑j : Nat) = ↑i from by omega),
      if_neg (show ¬ (↑i : Nat) < ↑j from by omega)]
  rw [← Matrix.det_transpose, Matrix.det_of_upperTriangular htri]
  refine Finset.prod_eq_one (fun i _ => ?_)
  rw [Matrix.transpose_apply]
  unfold Lof
  rw [Matrix.of_apply, if_pos (show (↑i : Nat) = ↑i from rfl)]

theorem symLower_det (n : Nat) (m : Nat → Nat → K)
    (hpiv : ∀ k, k < n → chval m k k ≠ 0) :
    (symLowerFin m n).det = ∏ k ∈ Finset.range n, chval m k k := by
  rw [← ldlt_master n m hpiv, Matrix.det_mul, Matrix.det_mul, det_Lof,
    Matrix.det_transpose, det_Lof, one_mul, mul_one]
  simp only [Dof]
  rw [Matrix.det_diagonal]
  rw [Fin.prod_univ_eq_prod_range (fun k => computeBuf n m k k) n]
  exact Finset.prod_congr rfl (fun k hk => computeBuf_diag n m k (Finset.mem_range.mp hk))

theorem backsub_unique (n : Nat) (m : Nat → Nat → K) (v : Nat → K)
    (hpiv : ∀ k, k < n → chval m k k ≠ 0) (w : Fin n → K)
    (hw : (symLowerFin m n).mulVec w = fun i : Fin n => v ↑i) :
    w = fun i : Fin n => backsubBuf n (computeBuf n m) v ↑i := by
  have hdet : IsUnit (symLowerFin m n).det := by
    rw [symLower_det n m hpiv, isUnit_iff_ne_zero, Finset.prod_ne_zero_iff]
    intro k hk
    exact hpiv k (Finset.mem_range.mp hk)
  letI := Matrix.invertibleOfIsUnitDet (symLowerFin m n) hdet
  have h2 : (symLowerFin m n).mulVec w
      = (symLowerFin m n).mulVec (fun i : Fin n => backsubBuf n (computeBuf n m) v ↑i) := by
    rw [hw, backsub_mulVec n m v hpiv]
  have h3 := congrArg (fun u => (symLowerFin m n)⁻¹.mulVec u) h2
  simp only [Matrix.mulVec_mulVec, Matrix.inv_mul_of_invertible, Matrix.one_mulVec] at h3
  exact h3

theorem chval_congr (n : Nat) (m1 m2 : Nat → Nat → K)
    (h : ∀ i j, j ≤ i → i < n → m1 i j = m2 i j) :
    ∀ c r, c ≤ r → r < n → chval m1 r c = chval m2 r c := by
  intro c
  induction c using Nat.strong_induction_on with
  | _ c ih =>
    intro r hcr hrn
    rw [chval_eq, chval_eq, h r c hcr hrn]
    congr 1
    refine Finset.sum_congr rfl (fun k hk => ?_)
    rw [Finset.mem_range] at hk
    rw [ih k hk r (by omega) hrn, ih k hk c (by omega) (by omega), ih k hk k le_rfl (by omega)]

theorem ysol_congr_buf (n : Nat) (b1 b2 : Nat → Nat → K)
    (h : ∀ i j, j ≤ i → i < n → b1 i j = b2 i j) (v : Nat → K) :
    ∀ i, i < n → ysol b1 v i = ysol b2 v i := by
  intro i
  induction i using Nat.strong_induction_on with
  | _ i ih =>
    intro hin
    rw [ysol_eq, ysol_eq]
    congr 1
    refine Finset.sum_congr rfl (fun j hj => ?_)
    rw [Finset.mem_range] at hj
    rw [h i j (by omega) hin, ih j hj (by omega)]

theorem xsol_congr_buf (n : Nat) (b1 b2 : Nat → Nat → K)
    (h : ∀ i j, j ≤ i → i < n → b1 i j = b2 i j) (z1 z2 : Nat → K)
    (hz : ∀ j, j < n → z1 j = z2 j) :
    ∀ d i, n - i ≤ d → i < n → xsol n b1 z1 i = xsol n b2 z2 i := by
  intro d
  induction d with
  | zero => intro i h1 h2; omega
  | succ d ih =>
    intro i hd hin
    rw [xsol_eq, xsol_eq, hz i hin]
    congr 1
    refine Finset.sum_congr rfl (fun k hk => ?_)
    rw [Finset.mem_range] at hk
    rw [h (i + 1 + k) i (by omega) (by omega), ih (i + 1 + k) (by omega) (by omega)]

theorem backsubBuf_congr (n : Nat) (b1 b2 : Nat → Nat → K)
    (h : ∀ i j, j ≤ i → i < n → b1 i j = b2 i j) (v : Nat → K) :
    ∀ i, backsubBuf n b1 v i = backsubBuf n b2 v i := by
  intro i
  rw [backsubBuf_eq, backsubBuf_eq]
  show (if i < n then
      xsol n b1 (fun j => if j < n then ysol b1 v j / b1 j j else 0) i else 0)
    = (if i < n then
      xsol n b2 (fun j => if j < n then ysol b2 v j / b2 j j else 0) i else 0)
  by_cases hi : i < n
  · rw [if_pos hi, if_pos hi]
    refine xsol_congr_buf n b1 b2 h _ _ (fun j hj => ?_) (n - i) i le_rfl hi
    rw [if_pos hj, if_pos hj, ysol_congr_buf n b1 b2 h v j hj, h j j le_rfl hj]
  · rw [if_neg hi, if_neg hi]

theorem backsubMatBuf_congr (n : Nat) (b1 b2 : Nat → Nat → K)
    (h : ∀ i j, j ≤ i → i < n → b1 i j = b2 i j) (B : Nat → Nat → K) :
    ∀ i c, backsubMatBuf n b1 B i c = backsubMatBuf n b2 B i c := by
  intro i c
  rw [backsubMatBuf_col, backsubMatBuf_col]
  exact backsubBuf_congr n b1 b2 h (fun r => B r c) i

theorem foldl_det (b : Nat → Nat → K) (s : Nat) (hs : 1 ≤ s) :
    (List.range' 1 (s - 1)).foldl (fun a i => a * b i i) (b 0 0)
      = ∏ i ∈ Finset.range s, b i i := by
  obtain ⟨t, rfl⟩ : ∃ t, s = t + 1 := ⟨s - 1, by omega⟩
  rw [foldl_mul_range' (fun i => b i i) (t + 1 - 1) 1 (b 0 0),
    show t + 1 - 1 = t from rfl, Finset.prod_range_succ', mul_comm]
  congr 1
  exact Finset.prod_congr rfl (fun k _ => by rw [show 1 + k = k + 1 from by omega])

theorem determinant_eq_prod (ch : Cholesky K) (hn : 1 ≤ ch.size) :
    Cholesky.determinant ch = ∏ i ∈ Finset.range ch.size, ch.my_cholesky i i := by
  unfold Cholesky.determinant
  exact foldl_det ch.my_cholesky ch.size hn

theorem finMat_eq_symLower (n : Nat) (m : Nat → Nat → K)
    (hsym : ∀ i j, i < n → j < n → m i j = m j i) :
    finMat n m = symLowerFin m n := by
  ext i j
  unfold finMat symLowerFin
  rw [Matrix.of_apply, Matrix.of_apply]
  by_cases h : (↑j : Nat) ≤ ↑i
  · rw [if_pos h]
  · rw [if_neg h]
    exact hsym ↑i ↑j i.isLt j.isLt

theorem inverse_core (n : Nat) (m : Nat → Nat → K)
    (hsym : ∀ i j, i < n → j < n → m i j = m j i)
    (hpiv : ∀ k, k < n → chval m k k ≠ 0) :
    finMat n m
        * Matrix.of (fun i j : Fin n => backsubMatBuf n (computeBuf n m) idMat ↑i ↑j)
      = 1 := by
  ext i j
  rw [Matrix.mul_apply, Matrix.one_apply]
  have hcol := congrFun
    (backsub_mulVec n m (fun r => idMat r ↑j) hpiv) i
  have hstep : ∑ k : Fin n, finMat n m i k
      * (Matrix.of (fun i j : Fin n => backsubMatBuf n (computeBuf n m) idMat ↑i ↑j)) k j
      = (symLowerFin m n).mulVec
          (fun k : Fin n => backsubBuf n (computeBuf n m) (fun r => idMat r ↑j) ↑k) i := by
    show _ = ∑ k : Fin n, symLowerFin m n i k
      * backsubBuf n (computeBuf n m) (fun r => idMat r ↑j) ↑k
    refine Finset.sum_congr rfl (fun k _ => ?_)
    rw [finMat_eq_symLower n m hsym]
    congr 1
    rw [Matrix.of_apply]
    exact backsubMatBuf_col n (computeBuf n m) idMat ↑j ↑k
  rw [hstep, hcol]
  show (if (↑i : Nat) = (↑j : Nat) then (1 : K) else 0) = if i = j then 1 else 0
  by_cases hij : i = j
  · rw [if_pos (show (↑i : Nat) = ↑j from by rw [hij]), if_pos hij]
  · rw [if_neg (fun hc => hij (Fin.ext hc)), if_neg hij]

/-- C1: after `compute(M)` (all induced pivots nonzero, exact field
arithmetic), `backsub(v)` returns the unique `x` with `M'·x = v`, where
`M'` is the symmetric matrix determined by the diagonal and strict lower
triangle of `M`. -/
theorem backsub_solves (n : Nat) (m : Nat → Nat → K) (v : Nat → K) (b0 : Nat → Nat → K)
    (hn : 1 ≤ n) (hpiv : ∀ k, k < n → chval m k k ≠ 0) :
    Cholesky.compute (⟨n, b0⟩ : Cholesky K) ⟨n, n, m⟩
        = (⟨n, computeBuf n m⟩, none)
      ∧ Cholesky.backsub (⟨n, computeBuf n m⟩ : Cholesky K) ⟨n, v⟩
        = Except.ok ⟨n, backsubBuf n (computeBuf n m) v⟩
      ∧ (symLowerFin m n).mulVec (fun i : Fin n => backsubBuf n (computeBuf n m) v ↑i)
        = (fun i : Fin n => v ↑i)
      ∧ ∀ w : Fin n → K, (symLowerFin m n).mulVec w = (fun i : Fin n => v ↑i)
          → w = fun i : Fin n => backsubBuf n (computeBuf n m) v ↑i := by
  refine ⟨?_, ?_, backsub_mulVec n m v hpiv, backsub_unique n m v hpiv⟩
  · show (if n ≠ n then ((⟨n, b0⟩ : Cholesky K), some TooNError.DimensionMismatch)
        else if n ≠ n then ((⟨n, b0⟩ : Cholesky K), some TooNError.DimensionMismatch)
        else ((⟨n, computeBuf n m⟩ : Cholesky K), none))
      = ((⟨n, computeBuf n m⟩ : Cholesky K), none)
    rw [if_neg (show ¬ n ≠ n from by omega), if_neg (show ¬ n ≠ n from by omega)]
  · show (if n ≠ n then Except.error TooNError.DimensionMismatch
        else Except.ok (⟨n, backsubBuf n (computeBuf n m) v⟩ : DVec K))
      = Except.ok ⟨n, backsubBuf n (computeBuf n m) v⟩
    rw [if_neg (show ¬ n ≠ n from by omega)]

/-- C2: after `compute` on a symmetric input with nonzero pivots, the strict
lower triangle of the buffer (with implicit unit diagonal) taken as `L`
and the diagonal taken as `D` satisfy `L·D·Lᵀ = M`, with `L` unit lower
triangular and `D` diagonal.  The whole development is stated over an
arbitrary field `K`, witnessing that `compute` uses only `+`, `-`, `*`
and one reciprocal `1/val` per diagonal entry, never a square root. -/
theorem compute_ldlt (n : Nat) (m : Nat → Nat → K) (hn : 1 ≤ n)
    (hsym : ∀ i j, i < n → j < n → m i j = m j i)
    (hpiv : ∀ k, k < n → chval m k k ≠ 0) :
    Lof n (computeBuf n m) * Dof n (computeBuf n m) * (Lof n (computeBuf n m))ᵀ
        = finMat n m
      ∧ (∀ i : Fin n, Lof n (computeBuf n m) i i = 1)
      ∧ (∀ i j : Fin n, (↑i : Nat) < ↑j → Lof n (computeBuf n m) i j = 0)
      ∧ (∀ i j : Fin n, i ≠ j → Dof n (computeBuf n m) i j = 0) := by
  refine ⟨?_, ?_, ?_, ?_⟩
  · rw [ldlt_master n m hpiv, finMat_eq_symLower n m hsym]
  · intro i
    unfold Lof
    rw [Matrix.of_apply, if_pos (show (↑i : Nat) = ↑i from rfl)]
  · intro i j hij
    unfold Lof
    rw [Matrix.of_apply, if_neg (show ¬ (↑i : Nat) = ↑j from by omega),
      if_neg (show ¬ (↑j : Nat) < ↑i from by omega)]
  · intro i j hij
    unfold Dof
    exact Matrix.diagonal_apply_ne _ hij

/-- C3: for every engine of size `N ≥ 1`, `determinant()` returns the
product of the `N` diagonal entries of the internal buffer; for a
decomposed symmetric input with nonzero pivots this product equals the
determinant of the input matrix. -/
theorem determinant_correct :
    (∀ ch : Cholesky K, 1 ≤ ch.size
        → Cholesky.determinant ch = ∏ i ∈ Finset.range ch.size, ch.my_cholesky i i)
      ∧ ∀ (n : Nat) (m : Nat → Nat → K), 1 ≤ n
          → (∀ i j, i < n → j < n → m i j = m j i)
          → (∀ k, k < n → chval m k k ≠ 0)
          → Cholesky.determinant (⟨n, computeBuf n m⟩ : Cholesky K) = (finMat n m).det := by
  refine ⟨determinant_eq_prod, ?_⟩
  intro n m hn hsym hpiv
  rw [determinant_eq_prod ⟨n, computeBuf n m⟩ hn]
  show ∏ i ∈ Finset.range n, computeBuf n m i i = (finMat n m).det
  rw [finMat_eq_symLower n m hsym, symLower_det n m hpiv]
  exact Finset.prod_congr rfl (fun k hk => computeBuf_diag n m k (Finset.mem_range.mp hk))

/-- C4: `get_inverse()` returns exactly `backsub(Identity(N))`; for a
decomposed symmetric input with nonzero pivots (exact arithmetic), the
result `X` satisfies `M·X = X·M = Identity`. -/
theorem get_inverse_correct (n : Nat) (m : Nat → Nat → K)
    (hsym : ∀ i j, i < n → j < n → m i j = m j i)
    (hpiv : ∀ k, k < n → chval m k k ≠ 0) :
    (∀ ch : Cholesky K, Cholesky.get_inverse ch
        = Cholesky.backsubMat ch ⟨ch.size, ch.size, idMat⟩)
      ∧ Cholesky.get_inverse (⟨n, computeBuf n m⟩ : Cholesky K)
        = Except.ok ⟨n, n, backsubMatBuf n (computeBuf n m) idMat⟩
      ∧ finMat n m
          * Matrix.of (fun i j : Fin n => backsubMatBuf n (computeBuf n m) idMat ↑i ↑j) = 1
      ∧ Matrix.of (fun i j : Fin n => backsubMatBuf n (computeBuf n m) idMat ↑i ↑j)
          * finMat n m = 1 := by
  have hMX := inverse_core n m hsym hpiv
  refine ⟨fun ch => rfl, ?_, hMX, Matrix.mul_eq_one_comm.mp hMX⟩
  show (if n ≠ n then Except.error TooNError.DimensionMismatch
      else Except.ok (⟨n, n, backsubMatBuf n (computeBuf n m) idMat⟩ : DMat K))
    = Except.ok ⟨n, n, backsubMatBuf n (computeBuf n m) idMat⟩
  rw [if_neg (show ¬ n ≠ n from by omega)]

/-- C5: a dimension disagreement (non-square input to `compute`, a square
input whose size differs from the engine size, or a `backsub` argument
whose length or row count differs from the engine size) yields
`DimensionMismatch` from the checks at the top of each member, before any
computation, and the engine state is returned unchanged. -/
theorem dimension_mismatch_checked (ch : Cholesky K) :
    (∀ M : DMat K, M.rows ≠ M.cols ∨ M.rows ≠ ch.size
        → Cholesky.compute ch M = (ch, some TooNError.DimensionMismatch))
      ∧ (∀ v : DVec K, v.len ≠ ch.size
        → Cholesky.backsub ch v = Except.error TooNError.DimensionMismatch)
      ∧ (∀ B : DMat K, B.rows ≠ ch.size
        → Cholesky.backsubMat ch B = Except.error TooNError.DimensionMismatch) := by
  refine ⟨?_, ?_, ?_⟩
  · intro M hM
    unfold Cholesky.compute
    by_cases h1 : M.rows ≠ M.cols
    · rw [if_pos h1]
    · rw [if_neg h1, if_pos (show M.rows ≠ ch.size from by omega)]
  · intro v hv
    unfold Cholesky.backsub
    rw [if_pos (show ch.size ≠ v.len from by omega)]
  · intro B hB
    unfold Cholesky.backsubMat
    rw [if_pos (show ch.size ≠ B.rows from by omega)]

/-- C6: two same-size inputs agreeing on the diagonal and strict lower
triangle decompose to identical engine states, and hence identical
`backsub`, matrix `backsub` and `determinant` results: the strict upper
triangle of the input never influences anything. -/
theorem input_upper_triangle_ignored (n : Nat) (m1 m2 : Nat → Nat → K)
    (h : ∀ i j, j ≤ i → i < n → m1 i j = m2 i j) :
    (∀ i j, i < n → j < n → computeBuf n m1 i j = computeBuf n m2 i j)
      ∧ (∀ v i, backsubBuf n (computeBuf n m1) v i = backsubBuf n (computeBuf n m2) v i)
      ∧ (∀ B i c, backsubMatBuf n (computeBuf n m1) B i c
          = backsubMatBuf n (computeBuf n m2) B i c)
      ∧ (1 ≤ n → Cholesky.determinant (⟨n, computeBuf n m1⟩ : Cholesky K)
          = Cholesky.determinant ⟨n, computeBuf n m2⟩) := by
  have hchv : ∀ c r, c ≤ r → r < n → chval m1 r c = chval m2 r c := chval_congr n m1 m2 h
  have hbuf : ∀ i j, i < n → j < n → computeBuf n m1 i j = computeBuf n m2 i j := by
    intro i j hi hj
    rcases lt_trichotomy i j with hij | hij | hij
    · rw [computeBuf_upper n m1 j i hij hj, computeBuf_upper n m2 j i hij hj,
        hchv i j (by omega) hj]
    · subst hij
      rw [computeBuf_diag n m1 i hi, computeBuf_diag n m2 i hi, hchv i i le_rfl hi]
    · rw [computeBuf_lower n m1 i j hij hi, computeBuf_lower n m2 i j hij hi,
        hchv j i (by omega) hi, hchv j j le_rfl hj]
  have hlow : ∀ i j, j ≤ i → i < n → computeBuf n m1 i j = computeBuf n m2 i j :=
    fun i j hji hin => hbuf i j hin (by omega)
  refine ⟨hbuf, fun v i => backsubBuf_congr n _ _ hlow v i,
    fun B i c => backsubMatBuf_congr n _ _ hlow B i c, fun hn => ?_⟩
  rw [determinant_eq_prod ⟨n, computeBuf n m1⟩ hn, determinant_eq_prod ⟨n, computeBuf n m2⟩ hn]
  exact Finset.prod_congr rfl
    (fun k hk => hbuf k k (Finset.mem_range.mp hk) (Finset.mem_range.mp hk))

/-- C7: the matrix overload of `backsub` equals the columnwise application
of the vector overload (in a field, dividing by `D[i]` and multiplying by
`1/D[i]` agree), and the returned matrix has `N` rows and `num_cols(B)`
columns. -/
theorem backsub_matrix_columnwise (n cols : Nat) (buf : Nat → Nat → K) (B : Nat → Nat → K)
    (hpiv : ∀ k, k < n → buf k k ≠ 0) :
    Cholesky.backsubMat (⟨n, buf⟩ : Cholesky K) ⟨n, cols, B⟩
        = Except.ok ⟨n, cols, backsubMatBuf n buf B⟩
      ∧ (∀ c, Cholesky.backsub (⟨n, buf⟩ : Cholesky K) ⟨n, fun r => B r c⟩
          = Except.ok ⟨n, backsubBuf n buf (fun r => B r c)⟩)
      ∧ ∀ c i, backsubMatBuf n buf B i c = backsubBuf n buf (fun r => B r c) i := by
  refine ⟨?_, fun c => ?_, fun c i => backsubMatBuf_col n buf B c i⟩
  · show (if n ≠ n then Except.error TooNError.DimensionMismatch
        else Except.ok (⟨n, cols, backsubMatBuf n buf B⟩ : DMat K))
      = Except.ok ⟨n, cols, backsubMatBuf n buf B⟩
    rw [if_neg (show ¬ n ≠ n from by omega)]
  · show (if n ≠ n then Except.error TooNError.DimensionMismatch
        else Except.ok (⟨n, backsubBuf n buf (fun r => B r c)⟩ : DVec K))
      = Except.ok ⟨n, backsubBuf n buf (fun r => B r c)⟩
    rw [if_neg (show ¬ n ≠ n from by omega)]

/-- C8: two engines whose buffers agree on the diagonal and strict lower
triangle (but may differ on the strict upper scratch triangle) return
identical results from `backsub` (both overloads), `get_inverse` and
`determinant`: no downstream operation reads the scratch triangle. -/
theorem scratch_upper_triangle_ignored (n : Nat) (b1 b2 : Nat → Nat → K)
    (h : ∀ i j, j ≤ i → i < n → b1 i j = b2 i j) :
    (∀ v : DVec K, Cholesky.backsub (⟨n, b1⟩ : Cholesky K) v = Cholesky.backsub ⟨n, b2⟩ v)
      ∧ (∀ B : DMat K, Cholesky.backsubMat (⟨n, b1⟩ : Cholesky K) B
          = Cholesky.backsubMat ⟨n, b2⟩ B)
      ∧ Cholesky.get_inverse (⟨n, b1⟩ : Cholesky K) = Cholesky.get_inverse ⟨n, b2⟩
      ∧ (1 ≤ n → Cholesky.determinant (⟨n, b1⟩ : Cholesky K)
          = Cholesky.determinant ⟨n, b2⟩) := by
  have hB : ∀ B : DMat K, Cholesky.backsubMat (⟨n, b1⟩ : Cholesky K) B
      = Cholesky.backsubMat ⟨n, b2⟩ B := by
    intro B
    show (if n ≠ B.rows then Except.error TooNError.DimensionMismatch
        else Except.ok (⟨n, B.cols, backsubMatBuf n b1 B.entry⟩ : DMat K))
      = (if n ≠ B.rows then Except.error TooNError.DimensionMismatch
        else Except.ok (⟨n, B.cols, backsubMatBuf n b2 B.entry⟩ : DMat K))
    by_cases hr : n ≠ B.rows
    · rw [if_pos hr, if_pos hr]
    · rw [if_neg hr, if_neg hr]
      exact congrArg Except.ok (congrArg (DMat.mk n B.cols)
        (funext (fun i => funext (fun c => backsubMatBuf_congr n b1 b2 h B.entry i c))))
  refine ⟨?_, hB, hB ⟨n, n, idMat⟩, fun hn => ?_⟩
  · intro v
    show (if n ≠ v.len then Except.error TooNError.DimensionMismatch
        else Except.ok (⟨n, backsubBuf n b1 v.entry⟩ : DVec K))
      = (if n ≠ v.len then Except.error TooNError.DimensionMismatch
        else Except.ok (⟨n, backsubBuf n b2 v.entry⟩ : DVec K))
    by_cases hl : n ≠ v.len
    · rw [if_pos hl, if_pos hl]
    · rw [if_neg hl, if_neg hl]
      exact congrArg Except.ok (congrArg (DVec.mk n)
        (funext (fun i => backsubBuf_congr n b1 b2 h v.entry i)))
  · rw [determinant_eq_prod ⟨n, b1⟩ hn, determinant_eq_prod ⟨n, b2⟩ hn]
    exact Finset.prod_congr rfl
      (fun k hk => h k k le_rfl (Finset.mem_range.mp hk))

/-- C10: `determinant()` reads cell `(0,0)` unconditionally before its loop
and then `(i,i)` for `1 ≤ i < N`; for `N ≥ 1` every access is in bounds,
while on a size-0 engine the `(0,0)` access is out of range; the value
returned is the product of the accessed cells. -/
theorem determinant_accesses_in_bounds :
    (∀ n, 1 ≤ n → ∀ p ∈ determinantAccesses n, p.1 < n ∧ p.2 < n)
      ∧ ((0, 0) ∈ determinantAccesses 0 ∧ ¬ (0 : Nat) < 0)
      ∧ ∀ ch : Cholesky K, Cholesky.determinant ch
          = ((determinantAccesses ch.size).map (fun p => ch.my_cholesky p.1 p.2)).foldl
              (fun a x => a * x) 1 := by
  refine ⟨?_, ⟨List.mem_cons_self _ _, by omega⟩, ?_⟩
  · intro n hn p hp
    unfold determinantAccesses at hp
    rcases List.mem_cons.mp hp with hp0 | hpm
    · rw [hp0]
      exact ⟨hn, hn⟩
    · obtain ⟨i, hi, rfl⟩ := List.mem_map.mp hpm
      rw [List.mem_range'_1] at hi
      exact ⟨by omega, by omega⟩
  · intro ch
    unfold Cholesky.determinant determinantAccesses
    rw [List.map_cons, List.foldl_cons, one_mul, List.map_map, List.foldl_map]
    rfl

theorem computeBuf_mEx_00 : computeBuf 2 mEx 0 0 = 4 := by
  norm_num [computeBuf, computeCol, innerStep, colVal, setE, mEx,
    List.range_succ, List.range'_succ]

theorem computeBuf_mEx_11 : computeBuf 2 mEx 1 1 = 2 := by
  norm_num [computeBuf, computeCol, innerStep, colVal, setE, mEx,
    List.range_succ, List.range'_succ]

theorem chval_mEx_00 : chval mEx 0 0 = 4 :=
  (computeBuf_diag 2 mEx 0 (by omega)).symm.trans computeBuf_mEx_00

theorem chval_mEx_11 : chval mEx 1 1 = 2 :=
  (computeBuf_diag 2 mEx 1 (by omega)).symm.trans computeBuf_mEx_11

theorem mEx_pivots : ∀ k, k < 2 → chval mEx k k ≠ 0 := by
  intro k hk
  interval_cases k
  · rw [chval_mEx_00]
    norm_num
  · rw [chval_mEx_11]
    norm_num

theorem mEx_sym : ∀ i j, i < 2 → j < 2 → mEx i j = mEx j i := by
  intro i j hi hj
  interval_cases i <;> interval_cases j <;> norm_num [mEx]

/-- C9: the concrete scenario `M = [[4, 2], [2, 3]]`: the decomposed buffer
has diagonal `D = (4, 2)` and strict-lower entry `L[1][0] = 1/2`;
`determinant()` returns `8`; `get_inverse()` returns
`[[3/8, -1/4], [-1/4, 1/2]]`; and `backsub((1, 1))` returns `(1/8, 1/4)`. -/
theorem concrete_scenario :
    computeBuf 2 mEx 0 0 = 4 ∧ computeBuf 2 mEx 1 1 = 2 ∧ computeBuf 2 mEx 1 0 = 1 / 2
      ∧ Cholesky.determinant (⟨2, computeBuf 2 mEx⟩ : Cholesky ℚ) = 8
      ∧ Cholesky.get_inverse (⟨2, computeBuf 2 mEx⟩ : Cholesky ℚ)
          = Except.ok ⟨2, 2, backsubMatBuf 2 (computeBuf 2 mEx) idMat⟩
      ∧ backsubMatBuf 2 (computeBuf 2 mEx) idMat 0 0 = 3 / 8
      ∧ backsubMatBuf 2 (computeBuf 2 mEx) idMat 0 1 = -(1 / 4)
      ∧ backsubMatBuf 2 (computeBuf 2 mEx) idMat 1 0 = -(1 / 4)
      ∧ backsubMatBuf 2 (computeBuf 2 mEx) idMat 1 1 = 1 / 2
      ∧ Cholesky.backsub (⟨2, computeBuf 2 mEx⟩ : Cholesky ℚ) ⟨2, vEx⟩
          = Except.ok ⟨2, backsubBuf 2 (computeBuf 2 mEx) vEx⟩
      ∧ backsubBuf 2 (computeBuf 2 mEx) vEx 0 = 1 / 8
      ∧ backsubBuf 2 (computeBuf 2 mEx) vEx 1 = 1 / 4 := by
  refine ⟨computeBuf_mEx_00, computeBuf_mEx_11, ?_, ?_, rfl, ?_, ?_, ?_, ?_, rfl, ?_, ?_⟩
  all_goals norm_num [computeBuf, computeCol, innerStep, colVal, setE, mEx, vEx, idMat,
    backsubMatBuf, backsubBuf, backPassM, backPass, diagPassM, diagPass, forwardPassM,
    forwardPass, setV, setR, Cholesky.determinant, List.range_succ, List.range'_succ]

theorem computeBuf_mEx_pivots : ∀ k, k < 2 → computeBuf 2 mEx k k ≠ 0 := by
  intro k hk
  interval_cases k
  · rw [computeBuf_mEx_00]
    norm_num
  · rw [computeBuf_mEx_11]
    norm_num

theorem mEx_lower_agree : ∀ i j, j ≤ i → i < 2 → mEx i j = mExUpper i j := by
  intro i j hji hi
  unfold mExUpper
  rw [if_neg (show ¬ i < j from by omega)]

theorem bEx_lower_agree : ∀ i j, j ≤ i → i < 2 → computeBuf 2 mEx i j = bExUpper i j := by
  intro i j hji hi
  unfold bExUpper
  rw [if_neg (show ¬ i < j from by omega)]

/-- Witness for C1 at the concrete scenario input. -/
theorem backsub_solves_witness :
    ((1 ≤ 2) ∧ (∀ k, k < 2 → chval mEx k k ≠ 0))
      ∧ (Cholesky.compute (⟨2, fun _ _ => 0⟩ : Cholesky ℚ) ⟨2, 2, mEx⟩
          = (⟨2, computeBuf 2 mEx⟩, none)
        ∧ Cholesky.backsub (⟨2, computeBuf 2 mEx⟩ : Cholesky ℚ) ⟨2, vEx⟩
          = Except.ok ⟨2, backsubBuf 2 (computeBuf 2 mEx) vEx⟩
        ∧ (symLowerFin mEx 2).mulVec (fun i : Fin 2 => backsubBuf 2 (computeBuf 2 mEx) vEx ↑i)
          = (fun i : Fin 2 => vEx ↑i)
        ∧ ∀ w : Fin 2 → ℚ, (symLowerFin mEx 2).mulVec w = (fun i : Fin 2 => vEx ↑i)
            → w = fun i : Fin 2 => backsubBuf 2 (computeBuf 2 mEx) vEx ↑i) :=
  ⟨⟨by decide, mEx_pivots⟩,
    backsub_solves 2 mEx vEx (fun _ _ => 0) (by decide) mEx_pivots⟩

/-- Witness for C2 at the concrete scenario input. -/
theorem compute_ldlt_witness :
    ((1 ≤ 2) ∧ (∀ i j, i < 2 → j < 2 → mEx i j = mEx j i)
        ∧ (∀ k, k < 2 → chval mEx k k ≠ 0))
      ∧ (Lof 2 (computeBuf 2 mEx) * Dof 2 (computeBuf 2 mEx) * (Lof 2 (computeBuf 2 mEx))ᵀ
            = finMat 2 mEx
        ∧ (∀ i : Fin 2, Lof 2 (computeBuf 2 mEx) i i = 1)
        ∧ (∀ i j : Fin 2, (↑i : Nat) < ↑j → Lof 2 (computeBuf 2 mEx) i j = 0)
        ∧ (∀ i j : Fin 2, i ≠ j → Dof 2 (computeBuf 2 mEx) i j = 0)) :=
  ⟨⟨by decide, mEx_sym, mEx_pivots⟩, compute_ldlt 2 mEx (by decide) mEx_sym mEx_pivots⟩

/-- Witness for C3 at the concrete scenario input. -/
theorem determinant_correct_witness :
    ((1 ≤ 2) ∧ (∀ i j, i < 2 → j < 2 → mEx i j = mEx j i)
        ∧ (∀ k, k < 2 → chval mEx k k ≠ 0))
      ∧ Cholesky.determinant (⟨2, computeBuf 2 mEx⟩ : Cholesky ℚ) = (finMat 2 mEx).det :=
  ⟨⟨by decide, mEx_sym, mEx_pivots⟩,
    (determinant_correct (K := ℚ)).2 2 mEx (by decide) mEx_sym mEx_pivots⟩

/-- Witness for C4 at the concrete scenario input. -/
theorem get_inverse_correct_witness :
    ((∀ i j, i < 2 → j < 2 → mEx i j = mEx j i) ∧ (∀ k, k < 2 → chval mEx k k ≠ 0))
      ∧ ((∀ ch : Cholesky ℚ, Cholesky.get_inverse ch
            = Cholesky.backsubMat ch ⟨ch.size, ch.size, idMat⟩)
        ∧ Cholesky.get_inverse (⟨2, computeBuf 2 mEx⟩ : Cholesky ℚ)
            = Except.ok ⟨2, 2, backsubMatBuf 2 (computeBuf 2 mEx) idMat⟩
        ∧ finMat 2 mEx
            * Matrix.of (fun i j : Fin 2 => backsubMatBuf 2 (computeBuf 2 mEx) idMat ↑i ↑j)
          = 1
        ∧ Matrix.of (fun i j : Fin 2 => backsubMatBuf 2 (computeBuf 2 mEx) idMat ↑i ↑j)
            * finMat 2 mEx = 1) :=
  ⟨⟨mEx_sym, mEx_pivots⟩, get_inverse_correct 2 mEx mEx_sym mEx_pivots⟩

/-- Witness for C5: `compute` on a non-square 2-by-3 input. -/
theorem dimension_mismatch_checked_witness :
    ((⟨2, 3, mEx⟩ : DMat ℚ).rows ≠ (⟨2, 3, mEx⟩ : DMat ℚ).cols
        ∨ (⟨2, 3, mEx⟩ : DMat ℚ).rows ≠ (⟨2, fun _ _ => 0⟩ : Cholesky ℚ).size)
      ∧ Cholesky.compute (⟨2, fun _ _ => 0⟩ : Cholesky ℚ) ⟨2, 3, mEx⟩
          = (⟨2, fun _ _ => 0⟩, some TooNError.DimensionMismatch) :=
  ⟨Or.inl (by decide),
    (dimension_mismatch_checked (⟨2, fun _ _ => 0⟩ : Cholesky ℚ)).1 ⟨2, 3, mEx⟩
      (Or.inl (by decide))⟩

/-- Witness for C6: the concrete input versus the same input with junk in
its strict upper triangle. -/
theorem input_upper_triangle_ignored_witness :
    (∀ i j, j ≤ i → i < 2 → mEx i j = mExUpper i j)
      ∧ ((∀ i j, i < 2 → j < 2 → computeBuf 2 mEx i j = computeBuf 2 mExUpper i j)
        ∧ (∀ (v : Nat → ℚ) i, backsubBuf 2 (computeBuf 2 mEx) v i
            = backsubBuf 2 (computeBuf 2 mExUpper) v i)
        ∧ (∀ (B : Nat → Nat → ℚ) i c, backsubMatBuf 2 (computeBuf 2 mEx) B i c
            = backsubMatBuf 2 (computeBuf 2 mExUpper) B i c)
        ∧ (1 ≤ 2 → Cholesky.determinant (⟨2, computeBuf 2 mEx⟩ : Cholesky ℚ)
            = Cholesky.determinant ⟨2, computeBuf 2 mExUpper⟩)) :=
  ⟨mEx_lower_agree, input_upper_triangle_ignored 2 mEx mExUpper mEx_lower_agree⟩

/-- Witness for C7 at the decomposed concrete buffer with `B = Identity`. -/
theorem backsub_matrix_columnwise_witness :
    (∀ k, k < 2 → computeBuf 2 mEx k k ≠ 0)
      ∧ (Cholesky.backsubMat (⟨2, computeBuf 2 mEx⟩ : Cholesky ℚ) ⟨2, 2, idMat⟩
            = Except.ok ⟨2, 2, backsubMatBuf 2 (computeBuf 2 mEx) idMat⟩
        ∧ (∀ c, Cholesky.backsub (⟨2, computeBuf 2 mEx⟩ : Cholesky ℚ) ⟨2, fun r => idMat r c⟩
            = Except.ok ⟨2, backsubBuf 2 (computeBuf 2 mEx) (fun r => idMat r c)⟩)
        ∧ ∀ c i, backsubMatBuf 2 (computeBuf 2 mEx) idMat i c
            = backsubBuf 2 (computeBuf 2 mEx) (fun r => idMat r c) i) :=
  ⟨computeBuf_mEx_pivots,
    backsub_matrix_columnwise 2 2 (computeBuf 2 mEx) idMat computeBuf_mEx_pivots⟩

/-- Witness for C8: the decomposed concrete buffer versus the same buffer
with junk in its strict upper scratch triangle. -/
theorem scratch_upper_triangle_ignored_witness :
    (∀ i j, j ≤ i → i < 2 → computeBuf 2 mEx i j = bExUpper i j)
      ∧ ((∀ v : DVec ℚ, Cholesky.backsub (⟨2, computeBuf 2 mEx⟩ : Cholesky ℚ) v
            = Cholesky.backsub ⟨2, bExUpper⟩ v)
        ∧ (∀ B : DMat ℚ, Cholesky.backsubMat (⟨2, computeBuf 2 mEx⟩ : Cholesky ℚ) B
            = Cholesky.backsubMat ⟨2, bExUpper⟩ B)
        ∧ Cholesky.get_inverse (⟨2, computeBuf 2 mEx⟩ : Cholesky ℚ)
            = Cholesky.get_inverse ⟨2, bExUpper⟩
        ∧ (1 ≤ 2 → Cholesky.determinant (⟨2, computeBuf 2 mEx⟩ : Cholesky ℚ)
            = Cholesky.determinant ⟨2, bExUpper⟩)) :=
  ⟨bEx_lower_agree,
    scratch_upper_triangle_ignored 2 (computeBuf 2 mEx) bExUpper bEx_lower_agree⟩

/-- Witness for C10 at `N = 2`. -/
theorem determinant_accesses_in_bounds_witness :
    (1 ≤ 2) ∧ (∀ p ∈ determinantAccesses 2, p.1 < 2 ∧ p.2 < 2) :=
  ⟨by decide, (determinant_accesses_in_bounds (K := ℚ)).1 2 (by decide)⟩

end TooN
